import Mathlib

/-!
Verification of the brand-kit-gen color extraction core.

This file gives a shallow embedding, in Lean 4, of the color-collection and
color-classification core of the `brand-kit-gen` repository
(`src/utils/color_utils.py`, `src/extractors/color_extractor.py`, and the
`BrandIdentity` construction in `src/brand_kit_gen.py`), together with theorems
settling the specification claims about it.

Modelling conventions:

* Python strings are modelled as Lean `String`/`List Char`.  Python's
  whitespace handling (`str.strip`, the regex class `\s`, the whitespace
  accepted by `int(s, 16)`) and `str.lower` are modelled over their ASCII
  behaviour; the inputs in scope are CSS/HTML color tokens, which are ASCII.
* Python machine integers are `Int`/`Nat` (the quantities here never overflow).
* Python's `int(s, 16)` accepts surrounding whitespace, one optional sign, an
  optional `0x`/`0X` prefix, and single underscores between digits (also one
  directly after the prefix); it raises `ValueError` otherwise.  This is
  modelled by `pyIntHex : List Char → Option Int` (errors become `none`).
* Fallible operations (Python `try`/`except`, regex searches that may not
  match, `min`/`max`/indexing on possibly-empty lists) return `Option`.
* `luminance` computes with IEEE doubles in the source; its gamma branch uses
  the real exponent 2.4, so the genuine function is modelled over `ℝ`
  (`luminance` below) and is not finitely evaluable.  All of its values are
  floats, i.e. rationals, and the classifier only consumes luminance through
  order comparisons, so the classifier itself (`classifyColors`) is stated
  parametrically over an arbitrary luminance valuation `lum : String → K` into
  a linear ordered field; theorems proved for every `lum` in particular hold
  for the instantiation `classify_colors := classifyColors luminance` at
  `K := ℝ`, which mirrors the source literally.  Concrete witnesses use
  `K := ℚ`.
* The source compares `color_distance(c1, c2) > 50` (resp. `> 30`) where
  `color_distance` is the real square root of an integer; since both sides are
  nonnegative this is equivalent to comparing the squared distance with
  `2500` (resp. `900`), which is exact also in floating point because `50.0²`
  is exactly representable.  The embedding of the classifier uses the squared
  comparison (`color_distance_sq`), and the lemma `color_distance_gt_iff`
  records the equivalence with the `ℝ`-valued `color_distance`.
-/

/-! ## Character and string helpers (Python ASCII semantics) -/

/-- ASCII whitespace recognized by Python's `str.strip()`, by `int(s, base)`,
and by the regex class `\s` (restricted to ASCII). -/
def isPySpace (c : Char) : Bool :=
  c = ' ' || c = '\t' || c = '\n' || c = '\r' || c = '\x0b' || c = '\x0c'

/-- ASCII decimal digit (regex `\d`, restricted to ASCII). -/
def isDigitCh (c : Char) : Bool :=
  '0' ≤ c && c ≤ '9'

/-- Hex digit in either case (regex class `[0-9a-fA-F]`, and the digits
accepted by `int(s, 16)` restricted to ASCII). -/
def isHexDigitCh (c : Char) : Bool :=
  ('0' ≤ c && c ≤ '9') || ('a' ≤ c && c ≤ 'f') || ('A' ≤ c && c ≤ 'F')

/-- Lowercase hex digit (the membership test `c in '0123456789abcdef'` used by
`normalize_color`). -/
def isLowerHexDigit (c : Char) : Bool :=
  ('0' ≤ c && c ≤ '9') || ('a' ≤ c && c ≤ 'f')

/-- Numeric value of a hex digit (meaningful when `isHexDigitCh c`). -/
def hexVal (c : Char) : Nat :=
  if c ≤ '9' then c.toNat - '0'.toNat
  else if c ≤ 'F' then c.toNat - 'A'.toNat + 10
  else c.toNat - 'a'.toNat + 10

/-- Python `str.strip()` (ASCII whitespace). -/
def pystrip (l : List Char) : List Char :=
  ((l.dropWhile isPySpace).reverse.dropWhile isPySpace).reverse

/-- Python `str.lower()` (ASCII; Lean's `Char.toLower` lowercases exactly
`'A'..'Z'`). -/
def pylower (l : List Char) : List Char :=
  l.map Char.toLower

/-! ## `int(s, 16)` -/

/-- Consume a run of hex digits with single underscores allowed between
digits, accumulating the value; returns the value so far and the unconsumed
suffix.  A stray underscore (trailing, doubled, or before a non-digit) is left
unconsumed, so the caller's leftover check rejects it, as Python does. -/
def hexRun : List Char → Nat → Nat × List Char
  | [], acc => (acc, [])
  | c :: cs, acc =>
    if isHexDigitCh c then hexRun cs (16 * acc + hexVal c)
    else if c = '_' then
      match cs with
      | d :: cs' =>
        if isHexDigitCh d then hexRun cs' (16 * acc + hexVal d)
        else (acc, c :: cs)
      | [] => (acc, c :: cs)
    else (acc, c :: cs)

/-- Strip an optional `0x`/`0X` base prefix, together with one underscore
that Python permits directly after the prefix. -/
def stripHexBase (l : List Char) : List Char :=
  match l with
  | '0' :: x :: r =>
    if x = 'x' || x = 'X' then
      match r with
      | '_' :: r' => r'
      | _ => r
    else l
  | _ => l

/-- Python `int(s, 16)`: optional whitespace, optional sign, optional base
prefix, a nonempty digit run (underscores between digits), optional trailing
whitespace.  `none` models `ValueError`. -/
def pyIntHex (l : List Char) : Option Int :=
  let s1 := l.dropWhile isPySpace
  let sgn : Int × List Char :=
    match s1 with
    | '+' :: r => (1, r)
    | '-' :: r => (-1, r)
    | _ => (1, s1)
  let s3 := stripHexBase sgn.2
  match s3 with
  | c :: _ =>
    if isHexDigitCh c then
      let vr := hexRun s3 0
      if (vr.2.dropWhile isPySpace).isEmpty then some (sgn.1 * vr.1) else none
    else none
  | [] => none

/-! ## color_utils.py -/

/-- Python `''.join(c * 2 for c in hex_color)`: double each character. -/
def doubleChars (l : List Char) : List Char :=
  l.foldr (fun c acc => c :: c :: acc) []

/-- The parsing part of `hex_to_rgb` (color_utils.py lines 6-31): strip all
leading `#`, expand 3-character shorthand by doubling, then require length 6
and parse the three 2-character slices with `int(·, 16)`; `none` is the case
where the source falls back to `(0, 0, 0)`.  Python's `int(s, 16)` accepts
signs, so a channel can be negative; channels are `Int`. -/
def hexRgbParse (hex_color : String) : Option (Int × Int × Int) :=
  let h0 := hex_color.toList.dropWhile (fun c => c = '#')
  let h := if h0.length = 3 then doubleChars h0 else h0
  if h.length = 6 then
    match pyIntHex (h.take 2), pyIntHex ((h.drop 2).take 2), pyIntHex (h.drop 4) with
    | some r, some g, some b => some (r, g, b)
    | _, _, _ => none
  else none

/-- Embeds `hex_to_rgb` (color_utils.py lines 6-31): total, with `(0, 0, 0)` as the
fallback for every malformed input. -/
def hex_to_rgb (hex_color : String) : Int × Int × Int :=
  (hexRgbParse hex_color).getD (0, 0, 0)

/-- WCAG gamma linearization (color_utils.py lines 53-54). -/
noncomputable def gammaLin (c : ℝ) : ℝ :=
  if c ≤ 0.03928 then c / 12.92 else ((c + 0.055) / 1.055) ^ (2.4 : ℝ)

/-- Embeds `luminance` (color_utils.py lines 39-61): WCAG relative luminance. -/
noncomputable def luminance (hex_color : String) : ℝ :=
  let rgb := hex_to_rgb hex_color
  0.2126 * gammaLin ((rgb.1 : ℝ) / 255) +
  0.7152 * gammaLin ((rgb.2.1 : ℝ) / 255) +
  0.0722 * gammaLin ((rgb.2.2 : ℝ) / 255)

/-- Embeds `is_grayscale` (color_utils.py lines 135-138); the classifier always calls
it with the default tolerance 10. -/
def is_grayscale (hex_color : String) (tolerance : Int) : Bool :=
  let rgb := hex_to_rgb hex_color
  decide (max rgb.1 (max rgb.2.1 rgb.2.2) - min rgb.1 (min rgb.2.1 rgb.2.2) ≤ tolerance)

/-- Embeds `saturation` (color_utils.py lines 141-150), with exact rational division
in place of float division. -/
def saturation (hex_color : String) : ℚ :=
  let rgb := hex_to_rgb hex_color
  let mx := max rgb.1 (max rgb.2.1 rgb.2.2)
  let mn := min rgb.1 (min rgb.2.1 rgb.2.2)
  if mx = 0 then 0 else ((mx : ℚ) - (mn : ℚ)) / (mx : ℚ)

/-- Squared Euclidean RGB distance (the radicand in `color_distance`,
color_utils.py lines 127-132). -/
def color_distance_sq (c1 c2 : String) : Int :=
  let a := hex_to_rgb c1
  let b := hex_to_rgb c2
  (a.1 - b.1) ^ 2 + (a.2.1 - b.2.1) ^ 2 + (a.2.2 - b.2.2) ^ 2

/-- Embeds `color_distance` (color_utils.py lines 127-132). -/
noncomputable def color_distance (c1 c2 : String) : ℝ :=
  Real.sqrt ((color_distance_sq c1 c2 : ℝ))

/-! ## parse_rgb_string and normalize_color

`parse_rgb_string` applies `re.search` with the pattern
`rgba?\s*\(\s*(\d+)\s*,\s*(\d+)\s*,\s*(\d+)`.  This pattern is
backtracking-free in effect: the optional `a` is followed by `\s*\(`, and `a`
is neither whitespace nor `(`, so declining the `a` after consuming it can
never help; each `\d+`/`\s*` run is followed by a character from a disjoint
class, so greedy maximal munch is the unique match.  `rgbTryAt` decides a
match anchored at one position; `rgbSearch` takes the leftmost one, exactly as
`re.search` does. -/

/-- Strip an exact literal prefix, or fail. -/
def dropPfx : List Char → List Char → Option (List Char)
  | [], l => some l
  | _ :: _, [] => none
  | p :: ps, c :: cs => if c = p then dropPfx ps cs else none

/-- Value of an ASCII digit run (regex capture `(\d+)` fed to Python `int`). -/
def digitsVal (l : List Char) : Nat :=
  l.foldl (fun a c => 10 * a + (c.toNat - '0'.toNat)) 0

/-- One `\s*` then a required literal character. -/
def skipWsThen (ch : Char) (l : List Char) : Option (List Char) :=
  dropPfx [ch] (l.dropWhile isPySpace)

/-- Regex `\s*(\d+)`: optional whitespace then a nonempty digit run. -/
def wsDigits (l : List Char) : Option (Nat × List Char) :=
  let l1 := (l.dropWhile isPySpace).takeWhile isDigitCh
  let l2 := (l.dropWhile isPySpace).dropWhile isDigitCh
  if l1.isEmpty then none else some (digitsVal l1, l2)

/-- Match `rgba?\s*\(\s*(\d+)\s*,\s*(\d+)\s*,\s*(\d+)` anchored at the start
of `l`, returning the three captured channel values. -/
def rgbTryAt (l : List Char) : Option (Nat × Nat × Nat) := do
  let l ← dropPfx ['r', 'g', 'b'] l
  let l := match l with
    | 'a' :: r => r
    | _ => l
  let l ← skipWsThen '(' l
  let (d1, l) ← wsDigits l
  let l ← skipWsThen ',' l
  let (d2, l) ← wsDigits l
  let l ← skipWsThen ',' l
  let (d3, _) ← wsDigits l
  pure (d1, d2, d3)

/-- Python `re.search`: the match at the leftmost position where one exists. -/
def rgbSearch : List Char → Option (Nat × Nat × Nat)
  | [] => none
  | c :: cs =>
    match rgbTryAt (c :: cs) with
    | some t => some t
    | none => rgbSearch cs

/-- Lowercase hex digit character for a value `< 16` (`Nat.digitChar`
semantics as used by Python's `%x` formatting). -/
def hexDigitChar (n : Nat) : Char :=
  if n < 10 then Char.ofNat ('0'.toNat + n) else Char.ofNat ('a'.toNat + n - 10)

/-- Plain lowercase hex representation, most significant digit first, with a
fuel argument (`fuel := n` always suffices) so that the definition is
structurally recursive and kernel-reducible. -/
def hexReprAux : Nat → Nat → List Char
  | 0, n => [hexDigitChar (n % 16)]
  | fuel + 1, n =>
    if n < 16 then [hexDigitChar n]
    else hexReprAux fuel (n / 16) ++ [hexDigitChar (n % 16)]

/-- Python `f"{n:x}"` for a nonnegative `n`. -/
def hexRepr (n : Nat) : List Char :=
  hexReprAux n n

/-- Python `f"{n:02x}"`: lowercase hex, zero-padded to a minimum width of 2
(wider when the value needs more than two digits). -/
def toHexMin2 (n : Nat) : List Char :=
  let ds := hexRepr n
  if ds.length < 2 then '0' :: ds else ds

/-- Embeds `rgb_to_hex` (color_utils.py lines 34-36), Python hex formatting
with the `02x` format specifier per channel.
Its only caller passes the nonnegative captures of `parse_rgb_string`. -/
def rgb_to_hex (r g b : Nat) : String :=
  String.mk ('#' :: (toHexMin2 r ++ toHexMin2 g ++ toHexMin2 b))

/-- Embeds `parse_rgb_string` (color_utils.py lines 88-105). -/
def parse_rgb_string (rgb_str : String) : Option String :=
  (rgbSearch rgb_str.toList).map (fun t => rgb_to_hex t.1 t.2.1 t.2.2)

/-- Embeds `normalize_color` (color_utils.py lines 108-124). -/
def normalize_color (color : String) : Option String :=
  let cs := pylower (pystrip color.toList)
  if cs.head? = some '#' then
    let h0 := cs.dropWhile (fun c => c = '#')
    let h := if h0.length = 3 then doubleChars h0 else h0
    if h.length = 6 && h.all isLowerHexDigit then some (String.mk ('#' :: h)) else none
  else if cs.take 3 = ['r', 'g', 'b'] then
    parse_rgb_string (String.mk cs)
  else none

/-- The spec's canonical color form: `#` followed by exactly 6 lowercase hex
digits. -/
def isCanonicalHex (s : String) : Bool :=
  s.toList.head? = some '#' && s.toList.tail.length = 6
    && s.toList.tail.all isLowerHexDigit

/-- Claim C3's bound, as the counterexample forces it: every rgb channel the
regex captures is at most 255. -/
def rgbChannelsLe255 (cs : List Char) : Bool :=
  match rgbSearch cs with
  | none => true
  | some t => decide (t.1 ≤ 255) && decide (t.2.1 ≤ 255) && decide (t.2.2 ≤ 255)

/-! ## The classifier (`ColorExtractor._classify_colors`)

The output dict `{primary, accent, background, text, theme}` is the `Palette`
structure.  Python's `min`/`max` over an iterable with a key function return
the **first** element attaining the optimum; `pyMinBy`/`pyMaxBy` model this
(and return `none` on an empty list, where Python would raise).
`sorted(colors, key=luminance)` is a stable ascending sort, modelled by
`List.insertionSort` with the relation `luminance a ≤ luminance b` (stable for
equal keys).  Each partial operation flows through `Option`; the totality
claim is then the theorem that the classifier never returns `none`. -/

structure Palette where
  primary : String
  accent : String
  background : String
  text : String
  theme : String
deriving DecidableEq, Repr

/-- The fixed default palette (color_extractor.py lines 191-198). -/
def defaultPalette : Palette :=
  ⟨"#333333", "#666666", "#ffffff", "#000000", "light"⟩

/-- One comparison step of Python `max(l, key)`: the current best is replaced
exactly when the new element's key is strictly larger. -/
def maxStep {α β : Type _} [LinearOrder β] (key : α → β) (acc y : α) : α :=
  if key acc < key y then y else acc

/-- One comparison step of Python `min(l, key)`. -/
def minStep {α β : Type _} [LinearOrder β] (key : α → β) (acc y : α) : α :=
  if key y < key acc then y else acc

/-- Python `max(l, key)`: first element with the largest key. -/
def pyMaxBy {α β : Type _} [LinearOrder β] (key : α → β) : List α → Option α
  | [] => none
  | x :: xs => some (xs.foldl (maxStep key) x)

/-- Python `min(l, key)`: first element with the smallest key. -/
def pyMinBy {α β : Type _} [LinearOrder β] (key : α → β) : List α → Option α
  | [] => none
  | x :: xs => some (xs.foldl (minStep key) x)

/-- The three luminance thresholds the source writes as the float literals
`0.1` (very dark, line 204), `0.9` (very light, line 205) and `0.5` (the
semantic-override theme recomputation, line 89).  The classifier below is
parametric in them (and in the luminance valuation) because its control flow
uses them only through order comparisons; `realThresholds` is the source's
instantiation over `ℝ`. -/
structure Thresholds (K : Type _) where
  veryDark : K
  veryLight : K
  half : K

/-- The source's literal thresholds 0.1, 0.9, 0.5. -/
noncomputable def realThresholds : Thresholds ℝ :=
  ⟨0.1, 0.9, 0.5⟩

/-- Embeds `dark_colors` (line 204): colors of luminance < 0.1. -/
def darkColorsOf {K : Type _} [LinearOrder K] (lum : String → K) (T : Thresholds K)
    (colors : List String) : List String :=
  colors.filter (fun c => decide (lum c < T.veryDark))

/-- Embeds `light_colors` (line 205): colors of luminance > 0.9. -/
def lightColorsOf {K : Type _} [LinearOrder K] (lum : String → K) (T : Thresholds K)
    (colors : List String) : List String :=
  colors.filter (fun c => decide (T.veryLight < lum c))

/-- Embeds `is_dark_theme` (lines 208-211): `dark_count > light_count or
(dark_colors and not light_colors)`. -/
def isDarkThemeOf {K : Type _} [LinearOrder K] (lum : String → K) (T : Thresholds K)
    (colors : List String) (counts : String → Nat) : Bool :=
  decide (((lightColorsOf lum T colors).map counts).sum
      < ((darkColorsOf lum T colors).map counts).sum)
    || (!(darkColorsOf lum T colors).isEmpty && (lightColorsOf lum T colors).isEmpty)

/-- Background selection (lines 200-219). -/
def backgroundOf {K : Type _} [LinearOrder K] (lum : String → K) (T : Thresholds K)
    (colors : List String) (counts : String → Nat) : Option String :=
  let dark := darkColorsOf lum T colors
  let light := lightColorsOf lum T colors
  let sorted_by_lum := List.insertionSort (fun a b => lum a ≤ lum b) colors
  if isDarkThemeOf lum T colors counts && !dark.isEmpty then pyMinBy lum dark
  else if !light.isEmpty then pyMaxBy lum light
  else if isDarkThemeOf lum T colors counts then sorted_by_lum.getLast?
  else sorted_by_lum.head?

/-- Embeds `chromatic_colors` (lines 221-225): non-grayscale and squared RGB distance
to the background above 50². -/
def chromaticColorsOf (colors : List String) (background : String) : List String :=
  colors.filter (fun c =>
    !is_grayscale c 10 && decide (2500 < color_distance_sq c background))

/-- Embeds `_classify_colors` (color_extractor.py lines 180-254), parametric in the
luminance valuation. -/
def classifyColors {K : Type _} [LinearOrder K] (lum : String → K) (T : Thresholds K)
    (colors : List String) (counts : String → Nat) : Option Palette :=
  if colors.isEmpty then some defaultPalette
  else
    match backgroundOf lum T colors counts with
    | none => none
    | some background =>
      let chromatic := chromaticColorsOf colors background
      let oprimary :=
        if !chromatic.isEmpty then pyMaxBy counts chromatic
        else
          let non_bg := colors.filter (fun c => decide (c ≠ background))
          if !non_bg.isEmpty then pyMaxBy counts non_bg else some "#333333"
      match oprimary with
      | none => none
      | some primary =>
        let accent_candidates := chromatic.filter (fun c =>
          decide (c ≠ primary) && decide (900 < color_distance_sq c primary))
        let oaccent :=
          if !accent_candidates.isEmpty then pyMaxBy saturation accent_candidates
          else some primary
        match oaccent with
        | none => none
        | some accent =>
          some ⟨primary, accent, background,
            if isDarkThemeOf lum T colors counts then "#ffffff" else "#000000",
            if isDarkThemeOf lum T colors counts then "dark" else "light"⟩

/-- Embeds `_classify_colors` at the source's own luminance function. -/
noncomputable def classify_colors (colors : List String) (counts : String → Nat) :
    Option Palette :=
  classifyColors luminance realThresholds colors counts

/-! ## Semantic override (`extract_from_url`, color_extractor.py lines 82-90) -/

structure SemanticHint where
  primary : Option String
  accent : Option String
  background : Option String
deriving DecidableEq, Repr

/-- The override step after classification: each role supplied by the hint
replaces the classified value; a background override additionally recomputes
theme from the new background's luminance and text from that theme.  (The
values stored in the hint are successful `normalize_color` results, hence
nonempty strings, so Python's truthiness test on them is just presence.) -/
def applySemanticOverride {K : Type _} [LinearOrder K] (lum : String → K)
    (T : Thresholds K) (classified : Palette) (hint : SemanticHint) : Palette :=
  let pr := hint.primary.getD classified.primary
  let ac := hint.accent.getD classified.accent
  match hint.background with
  | none => ⟨pr, ac, classified.background, classified.text, classified.theme⟩
  | some bg =>
    let th := if lum bg < T.half then "dark" else "light"
    ⟨pr, ac, bg, if th = "dark" then "#ffffff" else "#000000", th⟩

/-! ## The fetch-failure path and the caller's defaults -/

/-- The result dict of `extract_from_url`, with `Option` for keys that may be
absent. -/
structure ColorData where
  error : Option String
  colors : List String
  primary : Option String
  accent : Option String
  background : Option String
  text : Option String
  theme : Option String
deriving DecidableEq, Repr

/-- The early return on a fetch failure (color_extractor.py lines 51-56):
`{'error': str(e), 'colors': [], 'theme': 'light'}` — no other keys, and the
classifier is not invoked. -/
def fetchFailedColorData (msg : String) : ColorData :=
  ⟨some msg, [], none, none, none, none, some "light"⟩

/-- The color fields of `BrandIdentity`. -/
structure BrandColors where
  primary_color : String
  accent_color : String
  background_color : String
  text_color : String
  theme : String
deriving DecidableEq, Repr

/-- Embeds `extract_brand_identity` (brand_kit_gen.py lines 208-219) building the
identity from the extractor's dict with `.get` defaults, in the default
invocation without CLI color overrides. -/
def brandColorsFrom (cd : ColorData) : BrandColors :=
  ⟨cd.primary.getD "#333333", cd.accent.getD "#666666",
   cd.background.getD "#ffffff", cd.text.getD "#ffffff", cd.theme.getD "light"⟩

/-! ## Characterizations used by the claims -/

/-- Asserts that `m` is the first element of `l` attaining the maximum of `key`: everything
before it is strictly smaller, nothing after it is larger.  This is exactly
Python `max(l, key=key)`. -/
def FirstMaxBy {α β : Type _} [LinearOrder β] (key : α → β) (l : List α) (m : α) : Prop :=
  ∃ l₁ l₂, l = l₁ ++ m :: l₂ ∧ (∀ y ∈ l₁, key y < key m) ∧ ∀ y ∈ l₂, key y ≤ key m

/-- Asserts that `m` is the first element of `l` attaining the minimum of `key` (Python
`min(l, key=key)`). -/
def FirstMinBy {α β : Type _} [LinearOrder β] (key : α → β) (l : List α) (m : α) : Prop :=
  ∃ l₁ l₂, l = l₁ ++ m :: l₂ ∧ (∀ y ∈ l₁, key m < key y) ∧ ∀ y ∈ l₂, key m ≤ key y

/-- The background cascade as the source implements it (amended claim C1):
first branch min-luminance very-dark member, second branch max-luminance
very-light member; in the remaining case both extreme sets are necessarily
empty, the theme is necessarily light, and the background is the globally
*darkest* color. -/
def backgroundCharacterization {K : Type _} [LinearOrder K] (lum : String → K)
    (T : Thresholds K) (colors : List String) (counts : String → Nat)
    (bg : String) : Prop :=
  (isDarkThemeOf lum T colors counts = true ∧ darkColorsOf lum T colors ≠ [] →
    bg ∈ darkColorsOf lum T colors ∧
      ∀ c ∈ darkColorsOf lum T colors, lum bg ≤ lum c) ∧
  (¬(isDarkThemeOf lum T colors counts = true ∧ darkColorsOf lum T colors ≠ []) →
      lightColorsOf lum T colors ≠ [] →
    bg ∈ lightColorsOf lum T colors ∧
      ∀ c ∈ lightColorsOf lum T colors, lum c ≤ lum bg) ∧
  (darkColorsOf lum T colors = [] → lightColorsOf lum T colors = [] →
    isDarkThemeOf lum T colors counts = false ∧ bg ∈ colors ∧
      ∀ c ∈ colors, lum bg ≤ lum c)

/-- The background rule exactly as spec step 4 (claim C1) words it, including
its final clause "background = the global darkest color if dark theme, else
the global lightest color". -/
def specBackgroundOk {K : Type _} [LinearOrder K] (lum : String → K)
    (T : Thresholds K) (colors : List String) (counts : String → Nat)
    (bg : String) : Prop :=
  if isDarkThemeOf lum T colors counts = true ∧ darkColorsOf lum T colors ≠ [] then
    bg ∈ darkColorsOf lum T colors ∧ ∀ c ∈ darkColorsOf lum T colors, lum bg ≤ lum c
  else if lightColorsOf lum T colors ≠ [] then
    bg ∈ lightColorsOf lum T colors ∧ ∀ c ∈ lightColorsOf lum T colors, lum c ≤ lum bg
  else if isDarkThemeOf lum T colors counts = true then
    bg ∈ colors ∧ ∀ c ∈ colors, lum bg ≤ lum c
  else
    bg ∈ colors ∧ ∀ c ∈ colors, lum c ≤ lum bg

/-- Claim C8's primary-selection rule, which the source satisfies. -/
def primaryCharacterization (colors : List String) (counts : String → Nat)
    (bg pr : String) : Prop :=
  (chromaticColorsOf colors bg ≠ [] →
    FirstMaxBy counts (chromaticColorsOf colors bg) pr) ∧
  (chromaticColorsOf colors bg = [] →
      colors.filter (fun c => decide (c ≠ bg)) ≠ [] →
    FirstMaxBy counts (colors.filter (fun c => decide (c ≠ bg))) pr) ∧
  (chromaticColorsOf colors bg = [] →
      colors.filter (fun c => decide (c ≠ bg)) = [] →
    pr = "#333333")

/-! ## Semantic variable patterns (`SEMANTIC_VAR_PATTERNS`, lines 26-30, and
`_extract_semantic_vars`, lines 126-146)

The three patterns have the shape
`--(color-)?KW[^:]*:\s*(#[0-9a-fA-F]{3,6})` with `re.I`, where `KW` is an
alternation of keywords, and are applied with `re.search` (leftmost match);
`match.group(match.lastindex)` is the hex capture.  Case-insensitivity is
modelled by lowercasing the subject (the captured text is fed to
`normalize_color`, which lowercases, so this is value-preserving).  The
pattern is again backtracking-free: no keyword starts with `c`, so the
optional `color-` group is forced; the keywords within one alternation are
pairwise non-extending, so at most one alternative matches at a position; and
each greedy run (`[^:]*`, `\s*`, the hex digits) is followed by a character
outside its class. -/

def primaryKws : List (List Char) := ["primary".toList]

def accentKws : List (List Char) :=
  ["accent".toList, "secondary".toList, "highlight".toList]

def backgroundKws : List (List Char) := ["background".toList, "bg".toList]

/-- Match one of the alternation's keywords literally (first alternative in
pattern order), returning the remainder. -/
def firstKeyword : List (List Char) → List Char → Option (List Char)
  | [], _ => none
  | k :: rest, cs =>
    match dropPfx k cs with
    | some r => some r
    | none => firstKeyword rest cs

/-- The part of the pattern after the keyword:
`[^:]*:\s*(#[0-9a-fA-F]{3,6})`, returning the hex capture including its `#`. -/
def tryAfterKw (cs3 : List Char) : Option (List Char) :=
  match dropPfx [':'] (cs3.dropWhile (fun c => decide (c ≠ ':'))) with
  | none => none
  | some cs5 =>
    match dropPfx ['#'] (cs5.dropWhile isPySpace) with
    | none => none
    | some cs6 =>
      let ds := (cs6.takeWhile isHexDigitCh).take 6
      if 3 ≤ ds.length then some ('#' :: ds) else none

/-- Match `--(color-)?KW[^:]*:\s*(#[0-9a-fA-F]{3,6})` anchored at the start of
`cs` (already lowercased), returning the hex capture including its `#`. -/
def tryRoleAt (kws : List (List Char)) (cs : List Char) : Option (List Char) :=
  match dropPfx ['-', '-'] cs with
  | none => none
  | some cs1 =>
    let cs2 := match dropPfx "color-".toList cs1 with
      | some r => r
      | none => cs1
    match firstKeyword kws cs2 with
    | none => none
    | some cs3 => tryAfterKw cs3

/-- Python `re.search` for one semantic pattern: leftmost position with a match. -/
def searchRole (kws : List (List Char)) : List Char → Option (List Char)
  | [] => none
  | c :: cs =>
    match tryRoleAt kws (c :: cs) with
    | some h => some h
    | none => searchRole kws cs

/-- Embeds `_extract_semantic_vars` (color_extractor.py lines 126-146): for each
role, search its pattern, normalize the hex capture, and record the role only
when normalization succeeds. -/
def extract_semantic_vars (css : String) : SemanticHint :=
  let cs := pylower css.toList
  ⟨(searchRole primaryKws cs).bind (fun h => normalize_color (String.mk h)),
   (searchRole accentKws cs).bind (fun h => normalize_color (String.mk h)),
   (searchRole backgroundKws cs).bind (fun h => normalize_color (String.mk h))⟩

/-- Regex word characters plus hyphen (`[\w-]`, ASCII): the characters of a
CSS custom property name. -/
def isNameChar (c : Char) : Bool :=
  c.isAlphanum || c = '_' || c = '-'

/-- Claim C4 as stated: the css text contains a custom property whose name
*contains* the keyword, with a hex-literal value (3-6 hex digits) directly
after the colon.  Stated from the spec's words, to compare against the
source's regexes. -/
def SpecRoleVarContains (kws : List (List Char)) (css : List Char) : Prop :=
  ∃ pre name ws ds post,
    css = pre ++ ['-', '-'] ++ name ++ [':'] ++ ws ++ ['#'] ++ ds ++ post ∧
    name.all isNameChar = true ∧ (∃ kw ∈ kws, ∃ u w, name = u ++ kw ++ w) ∧
    ws.all isPySpace = true ∧
    3 ≤ ds.length ∧ ds.length ≤ 6 ∧ ds.all isHexDigitCh = true

/-- A match of one semantic pattern anchored at the start of `cs` (amended
claim C4): after `--` and an optional `color-`, the name must *begin* with a
keyword; any non-colon characters may follow before the colon; after optional
whitespace comes `#`; the capture is the first `min(6, run length)` characters
of the hex-digit run, which must have at least 3. -/
def SpecMatchCapture (kws : List (List Char)) (cs : List Char) (cap : List Char) : Prop :=
  ∃ pfx kw mid ws rest,
    (pfx = [] ∨ pfx = "color-".toList) ∧ kw ∈ kws ∧
    cs = ['-', '-'] ++ pfx ++ kw ++ mid ++ [':'] ++ ws ++ ['#'] ++ rest ∧
    (∀ c ∈ mid, c ≠ ':') ∧ (∀ c ∈ ws, isPySpace c = true) ∧
    3 ≤ (rest.takeWhile isHexDigitCh).length ∧
    cap = '#' :: (rest.takeWhile isHexDigitCh).take 6

/-- The hint's value for one role (amended claim C4): a match at the leftmost
matching position of the lowercased css, whose capture normalizes to `v`. -/
def FirstSemMatch (kws : List (List Char)) (css : String) (v : String) : Prop :=
  ∃ i cap,
    SpecMatchCapture kws ((pylower css.toList).drop i) cap ∧
    (∀ j < i, ∀ c, ¬ SpecMatchCapture kws ((pylower css.toList).drop j) c) ∧
    normalize_color (String.mk cap) = some v

/-- Side conditions on a keyword alternation under which the matcher is
deterministic: keywords are nonempty, none starts with `c` (so the optional
`color-` group is forced), and no keyword extends to another (so at most one
alternative matches at a given position). -/
def KwsGood (kws : List (List Char)) : Prop :=
  (∀ kw ∈ kws, kw ≠ [] ∧ kw.head? ≠ some 'c') ∧
  (∀ k₁ ∈ kws, ∀ k₂ ∈ kws, ∀ r₁ r₂ : List Char, k₁ ++ r₁ = k₂ ++ r₂ → k₁ = k₂)

/-- Claim C6's override contract: every role supplied by the hint appears
verbatim in the output, and a background override recomputes theme and text
from the new background's luminance alone. -/
def overrideCharacterization {K : Type _} [LinearOrder K] (lum : String → K)
    (T : Thresholds K) (p : Palette) (hint : SemanticHint) : Prop :=
  (∀ v, hint.primary = some v →
    (applySemanticOverride lum T p hint).primary = v) ∧
  (∀ v, hint.accent = some v →
    (applySemanticOverride lum T p hint).accent = v) ∧
  ∀ v, hint.background = some v →
    (applySemanticOverride lum T p hint).background = v ∧
    (applySemanticOverride lum T p hint).theme
      = (if lum v < T.half then "dark" else "light") ∧
    (applySemanticOverride lum T p hint).text
      = (if lum v < T.half then "#ffffff" else "#000000")

/-! The theorems. -/

theorem color_distance_sq_nonneg (c1 c2 : String) : 0 ≤ color_distance_sq c1 c2 := by
  unfold color_distance_sq
  positivity

/-- The source's comparison `color_distance(c1, c2) > t` (for a nonnegative
threshold `t`) is equivalent to the squared comparison the embedding uses. -/
theorem color_distance_gt_iff (c1 c2 : String) (t : ℝ) (ht : 0 ≤ t) :
    t < color_distance c1 c2 ↔ t ^ 2 < (color_distance_sq c1 c2 : ℝ) :=
  Real.lt_sqrt ht

theorem dropPfx_eq_some_iff (p : List Char) :
    ∀ l r : List Char, dropPfx p l = some r ↔ l = p ++ r := by
  induction p with
  | nil =>
    intro l r
    simp [dropPfx, eq_comm]
  | cons a p ih =>
    intro l r
    cases l with
    | nil => simp [dropPfx]
    | cons b l =>
      by_cases hba : b = a
      · subst hba
        simp [dropPfx, ih]
      · simp [dropPfx, hba, fun h : b = a => hba h]

theorem foldl_maxStep_spec {α β : Type _} [LinearOrder β] (key : α → β)
    (xs : List α) (x : α) :
    ∃ l₁ l₂, x :: xs = l₁ ++ xs.foldl (maxStep key) x :: l₂ ∧
      (∀ y ∈ l₁, key y < key (xs.foldl (maxStep key) x)) ∧
      ∀ y ∈ l₂, key y ≤ key (xs.foldl (maxStep key) x) := by
  induction xs generalizing x with
  | nil => exact ⟨[], [], rfl, by simp, by simp⟩
  | cons y ys ih =>
    have hstep : (y :: ys).foldl (maxStep key) x
        = ys.foldl (maxStep key) (maxStep key x y) := rfl
    rw [hstep]
    by_cases hxy : key x < key y
    · have hacc : maxStep key x y = y := by simp [maxStep, hxy]
      rw [hacc]
      obtain ⟨l₁, l₂, hdec, hlt, hle⟩ := ih y
      have hym : key y ≤ key (ys.foldl (maxStep key) y) := by
        cases l₁ with
        | nil =>
          obtain ⟨h1, -⟩ := List.cons.inj hdec
          exact le_of_eq (congrArg key h1)
        | cons a l₁' =>
          obtain ⟨h1, -⟩ := List.cons.inj hdec
          have ha := hlt a (List.mem_cons_self a l₁')
          rw [← h1] at ha
          exact le_of_lt ha
      refine ⟨x :: l₁, l₂, ?_, ?_, hle⟩
      · rw [List.cons_append, ← hdec]
      · intro z hz
        rcases List.mem_cons.mp hz with rfl | hz'
        · exact lt_of_lt_of_le hxy hym
        · exact hlt z hz'
    · have hacc : maxStep key x y = x := by simp [maxStep, hxy]
      rw [hacc]
      obtain ⟨l₁, l₂, hdec, hlt, hle⟩ := ih x
      cases l₁ with
      | nil =>
        obtain ⟨h1, h2⟩ := List.cons.inj hdec
        refine ⟨[], y :: ys, by rw [List.nil_append, ← h1], by simp, ?_⟩
        intro z hz
        rcases List.mem_cons.mp hz with rfl | hz'
        · exact le_trans (le_of_not_lt hxy) (le_of_eq (congrArg key h1))
        · rw [h2] at hz'
          exact hle z hz'
      | cons a l₁' =>
        obtain ⟨h1, h2⟩ := List.cons.inj hdec
        simp only [List.append_eq] at h2
        have hxm : key x < key (ys.foldl (maxStep key) x) := by
          have ha := hlt a (List.mem_cons_self a l₁')
          rw [← h1] at ha
          exact ha
        refine ⟨x :: y :: l₁', l₂, ?_, ?_, hle⟩
        · rw [List.cons_append, List.cons_append, ← h2]
        · intro z hz
          rcases List.mem_cons.mp hz with rfl | hz'
          · exact hxm
          rcases List.mem_cons.mp hz' with rfl | hz''
          · exact lt_of_le_of_lt (le_of_not_lt hxy) hxm
          · exact hlt z (List.mem_cons_of_mem a hz'')

theorem foldl_minStep_spec {α β : Type _} [LinearOrder β] (key : α → β)
    (xs : List α) (x : α) :
    ∃ l₁ l₂, x :: xs = l₁ ++ xs.foldl (minStep key) x :: l₂ ∧
      (∀ y ∈ l₁, key (xs.foldl (minStep key) x) < key y) ∧
      ∀ y ∈ l₂, key (xs.foldl (minStep key) x) ≤ key y := by
  induction xs generalizing x with
  | nil => exact ⟨[], [], rfl, by simp, by simp⟩
  | cons y ys ih =>
    have hstep : (y :: ys).foldl (minStep key) x
        = ys.foldl (minStep key) (minStep key x y) := rfl
    rw [hstep]
    by_cases hxy : key y < key x
    · have hacc : minStep key x y = y := by simp [minStep, hxy]
      rw [hacc]
      obtain ⟨l₁, l₂, hdec, hlt, hle⟩ := ih y
      have hym : key (ys.foldl (minStep key) y) ≤ key y := by
        cases l₁ with
        | nil =>
          obtain ⟨h1, -⟩ := List.cons.inj hdec
          exact le_of_eq (congrArg key h1).symm
        | cons a l₁' =>
          obtain ⟨h1, -⟩ := List.cons.inj hdec
          have ha := hlt a (List.mem_cons_self a l₁')
          rw [← h1] at ha
          exact le_of_lt ha
      refine ⟨x :: l₁, l₂, ?_, ?_, hle⟩
      · rw [List.cons_append, ← hdec]
      · intro z hz
        rcases List.mem_cons.mp hz with rfl | hz'
        · exact lt_of_le_of_lt hym hxy
        · exact hlt z hz'
    · have hacc : minStep key x y = x := by simp [minStep, hxy]
      rw [hacc]
      obtain ⟨l₁, l₂, hdec, hlt, hle⟩ := ih x
      cases l₁ with
      | nil =>
        obtain ⟨h1, h2⟩ := List.cons.inj hdec
        refine ⟨[], y :: ys, by rw [List.nil_append, ← h1], by simp, ?_⟩
        intro z hz
        rcases List.mem_cons.mp hz with rfl | hz'
        · exact le_trans (le_of_eq (congrArg key h1).symm) (le_of_not_lt hxy)
        · rw [h2] at hz'
          exact hle z hz'
      | cons a l₁' =>
        obtain ⟨h1, h2⟩ := List.cons.inj hdec
        simp only [List.append_eq] at h2
        have hxm : key (ys.foldl (minStep key) x) < key x := by
          have ha := hlt a (List.mem_cons_self a l₁')
          rw [← h1] at ha
          exact ha
        refine ⟨x :: y :: l₁', l₂, ?_, ?_, hle⟩
        · rw [List.cons_append, List.cons_append, ← h2]
        · intro z hz
          rcases List.mem_cons.mp hz with rfl | hz'
          · exact hxm
          rcases List.mem_cons.mp hz' with rfl | hz''
          · exact lt_of_lt_of_le hxm (le_of_not_lt hxy)
          · exact hlt z (List.mem_cons_of_mem a hz'')

theorem pyMaxBy_spec {α β : Type _} [LinearOrder β] (key : α → β) (l : List α)
    (h : l ≠ []) : ∃ m, pyMaxBy key l = some m ∧ FirstMaxBy key l m := by
  cases l with
  | nil => exact absurd rfl h
  | cons x xs =>
    obtain ⟨l₁, l₂, hdec, hlt, hle⟩ := foldl_maxStep_spec key xs x
    exact ⟨_, rfl, l₁, l₂, hdec, hlt, hle⟩

theorem pyMinBy_spec {α β : Type _} [LinearOrder β] (key : α → β) (l : List α)
    (h : l ≠ []) : ∃ m, pyMinBy key l = some m ∧ FirstMinBy key l m := by
  cases l with
  | nil => exact absurd rfl h
  | cons x xs =>
    obtain ⟨l₁, l₂, hdec, hlt, hle⟩ := foldl_minStep_spec key xs x
    exact ⟨_, rfl, l₁, l₂, hdec, hlt, hle⟩

theorem FirstMaxBy.mem_max {α β : Type _} [LinearOrder β] {key : α → β}
    {l : List α} {m : α} (h : FirstMaxBy key l m) :
    m ∈ l ∧ ∀ y ∈ l, key y ≤ key m := by
  obtain ⟨l₁, l₂, hdec, hlt, hle⟩ := h
  subst hdec
  refine ⟨by simp, ?_⟩
  intro y hy
  rcases List.mem_append.mp hy with hy' | hy'
  · exact le_of_lt (hlt y hy')
  · rcases List.mem_cons.mp hy' with rfl | hy''
    · exact le_refl _
    · exact hle y hy''

theorem FirstMinBy.mem_min {α β : Type _} [LinearOrder β] {key : α → β}
    {l : List α} {m : α} (h : FirstMinBy key l m) :
    m ∈ l ∧ ∀ y ∈ l, key m ≤ key y := by
  obtain ⟨l₁, l₂, hdec, hlt, hle⟩ := h
  subst hdec
  refine ⟨by simp, ?_⟩
  intro y hy
  rcases List.mem_append.mp hy with hy' | hy'
  · exact le_of_lt (hlt y hy')
  · rcases List.mem_cons.mp hy' with rfl | hy''
    · exact le_refl _
    · exact hle y hy''

theorem insertionSort_head_min {K : Type _} [LinearOrder K] (lum : String → K)
    (colors : List String) (h : colors ≠ []) :
    ∃ m, (List.insertionSort (fun a b => lum a ≤ lum b) colors).head? = some m ∧
      m ∈ colors ∧ ∀ c ∈ colors, lum m ≤ lum c := by
  haveI : IsTotal String (fun a b => lum a ≤ lum b) := ⟨fun a b => le_total (lum a) (lum b)⟩
  haveI : IsTrans String (fun a b => lum a ≤ lum b) := ⟨fun a b c hab hbc => le_trans hab hbc⟩
  have hperm := List.perm_insertionSort (fun a b => lum a ≤ lum b) colors
  have hsorted := List.sorted_insertionSort (fun a b => lum a ≤ lum b) colors
  cases hL : List.insertionSort (fun a b => lum a ≤ lum b) colors with
  | nil =>
    rw [hL] at hperm
    exact absurd hperm.symm.eq_nil h
  | cons m rest =>
    rw [hL] at hperm hsorted
    refine ⟨m, rfl, hperm.mem_iff.mp (List.mem_cons_self m rest), ?_⟩
    intro c hc
    rcases List.mem_cons.mp (hperm.mem_iff.mpr hc) with rfl | hcr
    · exact le_refl _
    · exact (List.sorted_cons.mp hsorted).1 c hcr

theorem backgroundOf_spec {K : Type _} [LinearOrder K] (lum : String → K)
    (T : Thresholds K) (colors : List String) (counts : String → Nat)
    (h : colors ≠ []) :
    ∃ bg, backgroundOf lum T colors counts = some bg ∧
      backgroundCharacterization lum T colors counts bg := by
  unfold backgroundOf
  by_cases hA : (isDarkThemeOf lum T colors counts
      && !(darkColorsOf lum T colors).isEmpty) = true
  · obtain ⟨hdarkT, hdne⟩ := Bool.and_eq_true_iff.mp hA
    have hdark : darkColorsOf lum T colors ≠ [] := by
      simpa [List.isEmpty_iff] using hdne
    obtain ⟨m, hm, hmin⟩ := pyMinBy_spec lum (darkColorsOf lum T colors) hdark
    obtain ⟨hmem, hle⟩ := hmin.mem_min
    refine ⟨m, ?_, ?_, ?_, ?_⟩
    · rw [if_pos hA]
      exact hm
    · intro _
      exact ⟨hmem, hle⟩
    · intro hcontra _
      exact absurd ⟨hdarkT, hdark⟩ hcontra
    · intro hd _
      exact absurd hd hdark
  · by_cases hL : (lightColorsOf lum T colors).isEmpty = false
    · have hlight : lightColorsOf lum T colors ≠ [] := by
        simpa [List.isEmpty_iff] using hL
      obtain ⟨m, hm, hmax⟩ := pyMaxBy_spec lum (lightColorsOf lum T colors) hlight
      obtain ⟨hmem, hge⟩ := hmax.mem_max
      refine ⟨m, ?_, ?_, ?_, ?_⟩
      · rw [if_neg (by simpa using hA), if_pos (by simpa using hL)]
        exact hm
      · rintro ⟨hdT, hdne⟩
        exact absurd (Bool.and_eq_true_iff.mpr
          ⟨hdT, by simpa [List.isEmpty_iff] using hdne⟩) hA
      · intro _ _
        exact ⟨hmem, hge⟩
      · intro _ hl
        exact absurd hl hlight
    · have hlempty : lightColorsOf lum T colors = [] := by
        rcases Bool.eq_false_or_eq_true ((lightColorsOf lum T colors).isEmpty) with h' | h'
        · exact List.isEmpty_iff.mp h'
        · exact absurd h' hL
      have hdempty : darkColorsOf lum T colors = [] := by
        by_contra hd
        have hd' : (darkColorsOf lum T colors).isEmpty = false := by
          simpa [List.isEmpty_iff] using hd
        have : isDarkThemeOf lum T colors counts = true := by
          unfold isDarkThemeOf
          rw [Bool.or_eq_true]
          right
          rw [Bool.and_eq_true]
          exact ⟨by rw [hd']; rfl, by rw [hlempty]; rfl⟩
        exact hA (by rw [this, hd']; rfl)
      have hdT : isDarkThemeOf lum T colors counts = false := by
        unfold isDarkThemeOf
        rw [hdempty, hlempty]
        simp
      obtain ⟨m, hm, hmem, hmin⟩ := insertionSort_head_min lum colors h
      refine ⟨m, ?_, ?_, ?_, ?_⟩
      · rw [if_neg (by simpa using hA), if_neg (by simpa using hL), if_neg (by simp [hdT])]
        exact hm
      · rintro ⟨hdT', -⟩
        rw [hdT] at hdT'
        exact absurd hdT' (by simp)
      · intro _ hl
        exact absurd hl (by simp [hlempty])
      · intro _ _
        exact ⟨hdT, hmem, hmin⟩

theorem classifyColors_spec {K : Type _} [LinearOrder K] (lum : String → K)
    (T : Thresholds K) (colors : List String) (counts : String → Nat)
    (h : colors ≠ []) :
    ∃ p : Palette, classifyColors lum T colors counts = some p ∧
      backgroundCharacterization lum T colors counts p.background ∧
      primaryCharacterization colors counts p.background p.primary := by
  obtain ⟨bg, hbg, hbgchar⟩ := backgroundOf_spec lum T colors counts h
  have hne : colors.isEmpty = false := by simpa [List.isEmpty_iff] using h
  unfold classifyColors
  rw [hne, hbg]
  simp only [Bool.false_eq_true, if_false]
  by_cases hch : chromaticColorsOf colors bg = []
  · by_cases hnb : colors.filter (fun c => decide (c ≠ bg)) = []
    · refine ⟨⟨"#333333", "#333333", bg, (if isDarkThemeOf lum T colors counts then "#ffffff" else "#000000"), (if isDarkThemeOf lum T colors counts then "dark" else "light")⟩, ?_, hbgchar, ?_, ?_, ?_⟩
      · simp only [hch, hnb, List.isEmpty_nil, Bool.not_true, Bool.false_eq_true,
          if_false, List.filter_nil]
      · intro hcontra
        exact absurd hch hcontra
      · intro _ hcontra
        exact absurd hnb hcontra
      · intro _ _
        rfl
    · obtain ⟨m, hm, hfm⟩ := pyMaxBy_spec counts _ hnb
      refine ⟨⟨m, m, bg, (if isDarkThemeOf lum T colors counts then "#ffffff" else "#000000"), (if isDarkThemeOf lum T colors counts then "dark" else "light")⟩, ?_, hbgchar, ?_, ?_, ?_⟩
      · simp only [hch, List.isEmpty_nil, Bool.not_true, Bool.false_eq_true, if_false,
          List.filter_nil]
        rw [if_pos (by simpa [List.isEmpty_iff] using hnb), hm]
      · intro hcontra
        exact absurd hch hcontra
      · intro _ _
        exact hfm
      · intro _ hcontra
        exact absurd hcontra hnb
  · obtain ⟨m, hm, hfm⟩ := pyMaxBy_spec counts _ hch
    have hch' : (chromaticColorsOf colors bg).isEmpty = false := by
      simpa [List.isEmpty_iff] using hch
    by_cases hac : (chromaticColorsOf colors bg).filter (fun c =>
        decide (c ≠ m) && decide (900 < color_distance_sq c m)) = []
    · refine ⟨⟨m, m, bg, (if isDarkThemeOf lum T colors counts then "#ffffff" else "#000000"), (if isDarkThemeOf lum T colors counts then "dark" else "light")⟩, ?_, hbgchar, ?_, ?_, ?_⟩
      · rw [if_pos (by simp [hch']), hm]
        simp only [hac, List.isEmpty_nil, Bool.not_true, Bool.false_eq_true, if_false]
      · intro _
        exact hfm
      · intro hcontra _
        exact absurd hcontra hch
      · intro hcontra _
        exact absurd hcontra hch
    · obtain ⟨a, ha, -⟩ := pyMaxBy_spec saturation _ hac
      refine ⟨⟨m, a, bg, (if isDarkThemeOf lum T colors counts then "#ffffff" else "#000000"), (if isDarkThemeOf lum T colors counts then "dark" else "light")⟩, ?_, hbgchar, ?_, ?_, ?_⟩
      · rw [if_pos (by simp [hch']), hm]
        dsimp only
        rw [if_pos (by simpa [List.isEmpty_iff] using hac), ha]
      · intro _
        exact hfm
      · intro hcontra _
        exact absurd hcontra hch
      · intro hcontra _
        exact absurd hcontra hch

/-- C7: for a corpus with zero unique colors (and no semantic hint) the
classifier returns exactly
`{primary: #333333, accent: #666666, background: #ffffff, text: #000000,
theme: light}`, immediately; no later step affects the result. -/
theorem claim_C7_empty_corpus_default {K : Type _} [LinearOrder K]
    (lum : String → K) (T : Thresholds K) (counts : String → Nat) :
    classifyColors lum T [] counts =
      some ⟨"#333333", "#666666", "#ffffff", "#000000", "light"⟩ := rfl

/-- C9: the classifier is total — for every corpus (any finite list of colors
with any occurrence counts) it produces a palette carrying all four color
roles and the theme tag; no partial operation inside it is ever reached on an
empty list. -/
theorem claim_C9_classifier_total {K : Type _} [LinearOrder K]
    (lum : String → K) (T : Thresholds K) (colors : List String)
    (counts : String → Nat) :
    ∃ p : Palette, classifyColors lum T colors counts = some p := by
  by_cases h : colors = []
  · subst h
    exact ⟨_, rfl⟩
  · obtain ⟨p, hp, -, -⟩ := classifyColors_spec lum T colors counts h
    exact ⟨p, hp⟩

/-- C1 (counterexample): with the corpus `["#808080", "#c0c0c0"]`, whose
luminances lie strictly between 0.1 and 0.9 (the valuation below assigns
their true luminances' order), there are no very-dark and no very-light
colors and the theme is light; the spec's step-4 cascade (`specBackgroundOk`)
then demands the globally *lightest* color `#c0c0c0` as background, but the
code (`sorted_by_lum[0]` in that branch) picks the globally darkest color
`#808080`. -/
theorem claim_C1_counterexample :
    classifyColors (fun c => if c = "#c0c0c0" then (5 : ℤ) else 2) ⟨1, 9, 5⟩
        ["#808080", "#c0c0c0"] (fun _ => 1) =
      some ⟨"#c0c0c0", "#c0c0c0", "#808080", "#000000", "light"⟩ ∧
    ¬ specBackgroundOk (fun c => if c = "#c0c0c0" then (5 : ℤ) else 2) ⟨1, 9, 5⟩
        ["#808080", "#c0c0c0"] (fun _ => 1) "#808080" := by
  constructor
  · decide
  · intro hcon
    unfold specBackgroundOk at hcon
    rw [if_neg (by decide), if_neg (by decide), if_neg (by decide)] at hcon
    exact absurd (hcon.2 "#c0c0c0" (by decide)) (by decide)

/-- C1 (amended): the background cascade as the code implements it — if the
theme is dark and very-dark colors exist, the background is the
minimum-luminance very-dark color; else if very-light colors exist, the
maximum-luminance very-light color; else both extreme sets are empty, the
theme is necessarily light, and the background is the globally *darkest*
color. -/
theorem claim_C1_background_cascade {K : Type _} [LinearOrder K]
    (lum : String → K) (T : Thresholds K) (colors : List String)
    (counts : String → Nat) (h : colors ≠ []) :
    ∃ p : Palette, classifyColors lum T colors counts = some p ∧
      backgroundCharacterization lum T colors counts p.background := by
  obtain ⟨p, hp, hbg, -⟩ := classifyColors_spec lum T colors counts h
  exact ⟨p, hp, hbg⟩

theorem claim_C1_background_cascade_witness :
    (["#000000"] : List String) ≠ [] ∧
    ∃ p : Palette,
      classifyColors (fun _ => (0 : ℤ)) ⟨1, 9, 5⟩ ["#000000"] (fun _ => 1)
        = some p ∧
      backgroundCharacterization (fun _ => (0 : ℤ)) ⟨1, 9, 5⟩ ["#000000"]
        (fun _ => 1) p.background :=
  ⟨by decide,
   claim_C1_background_cascade (fun _ => (0 : ℤ)) ⟨1, 9, 5⟩ ["#000000"]
     (fun _ => 1) (by decide)⟩

/-- C8: primary selection — the first-by-corpus-order highest-count chromatic
color; failing chromatic colors, the first-by-corpus-order highest-count
non-background color; failing that, `#333333`. -/
theorem claim_C8_primary_selection {K : Type _} [LinearOrder K]
    (lum : String → K) (T : Thresholds K) (colors : List String)
    (counts : String → Nat) (h : colors ≠ []) :
    ∃ p : Palette, classifyColors lum T colors counts = some p ∧
      primaryCharacterization colors counts p.background p.primary := by
  obtain ⟨p, hp, -, hpr⟩ := classifyColors_spec lum T colors counts h
  exact ⟨p, hp, hpr⟩

theorem claim_C8_primary_selection_witness :
    (["#ff0000", "#00ff00"] : List String) ≠ [] ∧
    ∃ p : Palette,
      classifyColors (fun _ => (4 : ℤ)) ⟨1, 9, 5⟩ ["#ff0000", "#00ff00"]
        (fun _ => 1) = some p ∧
      primaryCharacterization ["#ff0000", "#00ff00"] (fun _ => 1)
        p.background p.primary :=
  ⟨by decide,
   claim_C8_primary_selection (fun _ => (4 : ℤ)) ⟨1, 9, 5⟩ ["#ff0000", "#00ff00"]
     (fun _ => 1) (by decide)⟩

/-- C6: semantic hints override unconditionally — every role supplied by the
hint replaces the classified value regardless of the corpus, and a background
override recomputes theme (`dark` iff luminance < 0.5) and text (`#ffffff`
for dark, `#000000` for light) from the new background alone. -/
theorem claim_C6_semantic_override {K : Type _} [LinearOrder K]
    (lum : String → K) (T : Thresholds K) (colors : List String)
    (counts : String → Nat) (hint : SemanticHint) (p : Palette)
    (_h : classifyColors lum T colors counts = some p) :
    overrideCharacterization lum T p hint := by
  unfold overrideCharacterization applySemanticOverride
  refine ⟨?_, ?_, ?_⟩
  · intro v hv
    cases hb : hint.background <;> simp [hv]
  · intro v hv
    cases hb : hint.background <;> simp [hv]
  · intro v hv
    rw [hv]
    dsimp only
    refine ⟨rfl, rfl, ?_⟩
    by_cases hl : lum v < T.half
    · rw [if_pos hl, if_pos hl, if_pos rfl]
    · rw [if_neg hl, if_neg hl, if_neg (by decide)]

theorem claim_C6_semantic_override_witness :
    classifyColors (fun c => if c = "#000000" then (0 : ℤ) else 10) ⟨1, 9, 5⟩
        ["#ffffff"] (fun _ => 1) =
      some ⟨"#333333", "#333333", "#ffffff", "#000000", "light"⟩ ∧
    overrideCharacterization (fun c => if c = "#000000" then (0 : ℤ) else 10)
      ⟨1, 9, 5⟩ ⟨"#333333", "#333333", "#ffffff", "#000000", "light"⟩
      ⟨some "#123456", some "#654321", some "#000000"⟩ :=
  ⟨by decide,
   claim_C6_semantic_override (fun c => if c = "#000000" then (0 : ℤ) else 10)
     ⟨1, 9, 5⟩ ["#ffffff"] (fun _ => 1)
     ⟨some "#123456", some "#654321", some "#000000"⟩
     ⟨"#333333", "#333333", "#ffffff", "#000000", "light"⟩ (by decide)⟩

/-- C2 (code-bug evidence): on a fetch failure `extract_from_url` returns
only `{'error', 'colors': [], 'theme': 'light'}` — `_classify_colors` is
*not* invoked and the primary/accent/background/text roles are absent from
the result, contradicting the function's own docstring ("Returns: Dict with
... primary ... accent ... background ...").  The caller then fills the
missing keys with `.get` defaults whose text default is `#ffffff`, not the
documented classifier default `#000000` (which the classifier, had it been
invoked on the empty corpus, would have produced). -/
theorem claim_C2_fetch_failure_behavior :
    (fetchFailedColorData "connection error").primary = none ∧
    (fetchFailedColorData "connection error").background = none ∧
    (brandColorsFrom (fetchFailedColorData "connection error")).text_color
      = "#ffffff" ∧
    classifyColors (fun _ => (0 : ℤ)) ⟨1, 9, 5⟩ [] (fun _ => 0) = some defaultPalette ∧
    defaultPalette.text = "#000000" :=
  ⟨rfl, rfl, rfl, rfl, rfl⟩

theorem lowerHex_toNat (c : Char) (h : isLowerHexDigit c = true) :
    (48 ≤ c.toNat ∧ c.toNat ≤ 57) ∨ (97 ≤ c.toNat ∧ c.toNat ≤ 102) := by
  unfold isLowerHexDigit at h
  rcases Bool.or_eq_true_iff.mp h with h' | h' <;>
    obtain ⟨h1, h2⟩ := Bool.and_eq_true_iff.mp h'
  · left
    have h1' := of_decide_eq_true h1
    have h2' := of_decide_eq_true h2
    rw [Char.le_def] at h1' h2'
    exact ⟨h1', h2'⟩
  · right
    have h1' := of_decide_eq_true h1
    have h2' := of_decide_eq_true h2
    rw [Char.le_def] at h1' h2'
    exact ⟨h1', h2'⟩

theorem toLower_eq_self_of_lowerHex (c : Char) (h : isLowerHexDigit c = true) :
    Char.toLower c = c := by
  have hb := lowerHex_toNat c h
  unfold Char.toLower
  rw [if_neg]
  intro hcon
  obtain ⟨h1, h2⟩ := hcon
  omega

theorem isPySpace_false_of_lowerHex (c : Char) (h : isLowerHexDigit c = true) :
    isPySpace c = false := by
  have hb := lowerHex_toNat c h
  have e1 : (' ').toNat = 32 := rfl
  have e2 : ('\t').toNat = 9 := rfl
  have e3 : ('\n').toNat = 10 := rfl
  have e4 : ('\r').toNat = 13 := rfl
  have e5 : ('\x0b').toNat = 11 := rfl
  have e6 : ('\x0c').toNat = 12 := rfl
  unfold isPySpace
  have hne : ∀ d : Char, c.toNat ≠ d.toNat → decide (c = d) = false := by
    intro d hd
    rw [decide_eq_false_iff_not]
    intro he
    exact hd (by rw [he])
  rw [hne ' ' (by omega), hne '\t' (by omega), hne '\n' (by omega),
    hne '\r' (by omega), hne '\x0b' (by omega), hne '\x0c' (by omega)]
  rfl

theorem hash_ne_of_lowerHex (c : Char) (h : isLowerHexDigit c = true) :
    decide (c = '#') = false := by
  have hb := lowerHex_toNat c h
  have e1 : ('#').toNat = 35 := rfl
  rw [decide_eq_false_iff_not]
  intro he
  subst he
  omega

theorem dropWhile_eq_self_of_all (p : Char → Bool) (l : List Char)
    (h : ∀ c ∈ l, p c = false) : l.dropWhile p = l := by
  cases l with
  | nil => rfl
  | cons a l => simp [List.dropWhile_cons, h a (List.mem_cons_self a l)]

theorem pystrip_eq_self (l : List Char) (h : ∀ c ∈ l, isPySpace c = false) :
    pystrip l = l := by
  unfold pystrip
  rw [dropWhile_eq_self_of_all _ _ h,
    dropWhile_eq_self_of_all _ _ (fun c hc => h c (List.mem_reverse.mp hc)),
    List.reverse_reverse]

theorem pylower_eq_self (l : List Char)
    (h : ∀ c ∈ l, c = '#' ∨ isLowerHexDigit c = true) : pylower l = l := by
  unfold pylower
  induction l with
  | nil => rfl
  | cons a l ih =>
    rw [List.map_cons, ih (fun c hc => h c (List.mem_cons_of_mem a hc))]
    rcases h a (List.mem_cons_self a l) with ha | ha
    · subst ha
      rfl
    · rw [toLower_eq_self_of_lowerHex a ha]

theorem stringMk_toList (s : String) : String.mk s.toList = s := by
  cases s
  rfl

/-- A canonical `#rrggbb` string is a fixed point of `normalize_color`. -/
theorem normalize_canonical_fixed (r : String) (hc : isCanonicalHex r = true) :
    normalize_color r = some r := by
  unfold isCanonicalHex at hc
  obtain ⟨⟨hhd, hlen⟩, hall⟩ :=
    Bool.and_eq_true_iff.mp hc |>.imp_left Bool.and_eq_true_iff.mp
  have hhd' := of_decide_eq_true hhd
  have hlen' : (r.toList.tail.length = 6) := of_decide_eq_true hlen
  obtain ⟨rest, hr⟩ : ∃ rest, r.toList = '#' :: rest := by
    cases hl : r.toList with
    | nil => rw [hl] at hhd'; exact absurd hhd' (by simp)
    | cons a l =>
      rw [hl] at hhd'
      simp only [List.head?_cons, Option.some.injEq] at hhd'
      exact ⟨l, by rw [hhd']⟩
  rw [hr] at hlen' hall
  simp only [List.tail_cons] at hlen' hall
  have hrest : ∀ c ∈ rest, isLowerHexDigit c = true := by
    intro c hcm
    exact List.all_eq_true.mp hall c hcm
  unfold normalize_color
  rw [hr]
  rw [pystrip_eq_self _ (by
    intro c hcm
    rcases List.mem_cons.mp hcm with rfl | hcm'
    · rfl
    · exact isPySpace_false_of_lowerHex c (hrest c hcm'))]
  rw [pylower_eq_self _ (by
    intro c hcm
    rcases List.mem_cons.mp hcm with rfl | hcm'
    · exact Or.inl rfl
    · exact Or.inr (hrest c hcm'))]
  rw [if_pos (by rfl)]
  have hdrop : ('#' :: rest).dropWhile (fun c => c = '#') = rest := by
    rw [List.dropWhile_cons]
    simp only [decide_True, if_true]
    exact dropWhile_eq_self_of_all _ _ (fun c hcm => hash_ne_of_lowerHex c (hrest c hcm))
  rw [hdrop]
  dsimp only
  rw [if_neg (show ¬(rest.length = 3) from by rw [hlen']; decide)]
  rw [if_pos (show (decide (rest.length = 6) && rest.all isLowerHexDigit) = true
    from Bool.and_eq_true_iff.mpr ⟨by rw [hlen']; decide, hall⟩)]
  rw [← hr, stringMk_toList]

theorem hexDigitChar_lowerHex : ∀ k, k < 16 → isLowerHexDigit (hexDigitChar k) = true := by
  decide

theorem hexReprAux_lt16 (fuel n : Nat) (h : n < 16) :
    hexReprAux fuel n = [hexDigitChar n] := by
  cases fuel with
  | zero => simp [hexReprAux, Nat.mod_eq_of_lt h]
  | succ f => simp [hexReprAux, h]

theorem toHexMin2_spec (n : Nat) (hn : n ≤ 255) :
    (toHexMin2 n).length = 2 ∧ (toHexMin2 n).all isLowerHexDigit = true := by
  by_cases h16 : n < 16
  · have hds : hexRepr n = [hexDigitChar n] := hexReprAux_lt16 n n h16
    unfold toHexMin2
    rw [hds]
    refine ⟨rfl, ?_⟩
    rw [if_pos (show ([hexDigitChar n]).length < 2 from by simp)]
    simp only [List.all_cons, List.all_nil, Bool.and_true]
    rw [hexDigitChar_lowerHex n h16]
    decide
  · have h16' : 16 ≤ n := le_of_not_lt h16
    obtain ⟨m, rfl⟩ : ∃ m, n = m + 1 := ⟨n - 1, by omega⟩
    have hds : hexRepr (m + 1) =
        [hexDigitChar ((m + 1) / 16), hexDigitChar ((m + 1) % 16)] := by
      unfold hexRepr
      rw [show hexReprAux (m + 1) (m + 1) =
          (if m + 1 < 16 then [hexDigitChar (m + 1)]
           else hexReprAux m ((m + 1) / 16) ++ [hexDigitChar ((m + 1) % 16)])
        from rfl]
      rw [if_neg (by omega)]
      rw [hexReprAux_lt16 m ((m + 1) / 16) (by omega)]
      rfl
    unfold toHexMin2
    rw [hds]
    have hnlt : ¬([hexDigitChar ((m + 1) / 16),
        hexDigitChar ((m + 1) % 16)]).length < 2 := by simp
    refine ⟨by rw [if_neg hnlt]; rfl, ?_⟩
    rw [if_neg hnlt]
    simp only [List.all_cons, List.all_nil, Bool.and_true]
    rw [hexDigitChar_lowerHex ((m + 1) / 16) (by omega),
      hexDigitChar_lowerHex ((m + 1) % 16) (by omega)]
    rfl

theorem rgb_to_hex_canonical (r g b : Nat) (hr : r ≤ 255) (hg : g ≤ 255)
    (hb : b ≤ 255) : isCanonicalHex (rgb_to_hex r g b) = true := by
  obtain ⟨hrl, hra⟩ := toHexMin2_spec r hr
  obtain ⟨hgl, hga⟩ := toHexMin2_spec g hg
  obtain ⟨hbl, hba⟩ := toHexMin2_spec b hb
  unfold isCanonicalHex rgb_to_hex
  have ht : (String.mk ('#' :: (toHexMin2 r ++ toHexMin2 g ++ toHexMin2 b))).toList
      = '#' :: (toHexMin2 r ++ toHexMin2 g ++ toHexMin2 b) := rfl
  rw [ht]
  simp only [List.head?_cons, List.tail_cons, List.length_append, List.all_append,
    hrl, hgl, hbl, hra, hga, hba]
  decide

/-- C3 (counterexample): `rgb()` input with a channel above 255 — the
collector normalizes `rgb(256, 0, 0)` to `"#1000000"`, a 7-hex-digit string
that is not of the canonical `#rrggbb` form (and which the collector then
emits). -/
theorem claim_C3_counterexample :
    normalize_color "rgb(256, 0, 0)" = some "#1000000" ∧
    isCanonicalHex "#1000000" = false := by
  constructor
  · decide
  · decide

/-- C3 (amended): every successful normalization whose parsed rgb channels
(if the rgb path is taken) are at most 255 yields a canonical lowercase
6-hex-digit `#rrggbb` string; hex-path results are always canonical. -/
theorem claim_C3_normalize_canonical (s r : String)
    (h : normalize_color s = some r)
    (hb : rgbChannelsLe255 (pylower (pystrip s.toList)) = true) :
    isCanonicalHex r = true := by
  unfold normalize_color at h
  by_cases hhd : (pylower (pystrip s.toList)).head? = some '#'
  · rw [if_pos hhd] at h
    set h6 := (if ((pylower (pystrip s.toList)).dropWhile (fun c => c = '#')).length = 3
      then doubleChars ((pylower (pystrip s.toList)).dropWhile (fun c => c = '#'))
      else (pylower (pystrip s.toList)).dropWhile (fun c => c = '#')) with hh6
    by_cases hcond : (decide (h6.length = 6) && h6.all isLowerHexDigit) = true
    · rw [if_pos hcond] at h
      obtain ⟨hlen, hall⟩ := Bool.and_eq_true_iff.mp hcond
      injection h with h'
      subst h'
      unfold isCanonicalHex
      have ht : (String.mk ('#' :: h6)).toList = '#' :: h6 := rfl
      rw [ht]
      simp only [List.head?_cons, List.tail_cons]
      rw [hall, hlen]
      decide
    · rw [if_neg hcond] at h
      exact absurd h (by simp)
  · rw [if_neg hhd] at h
    by_cases hrgb : (pylower (pystrip s.toList)).take 3 = ['r', 'g', 'b']
    · rw [if_pos hrgb] at h
      unfold parse_rgb_string at h
      have htl : (String.mk (pylower (pystrip s.toList))).toList
          = pylower (pystrip s.toList) := rfl
      rw [htl] at h
      cases hsr : rgbSearch (pylower (pystrip s.toList)) with
      | none => rw [hsr] at h; exact absurd h (by simp)
      | some t =>
        rw [hsr] at h
        replace h : some (rgb_to_hex t.1 t.2.1 t.2.2) = some r := h
        injection h with h
        subst h
        unfold rgbChannelsLe255 at hb
        rw [hsr] at hb
        obtain ⟨⟨hb1, hb2⟩, hb3⟩ :=
          (Bool.and_eq_true_iff.mp hb).imp_left Bool.and_eq_true_iff.mp
        exact rgb_to_hex_canonical t.1 t.2.1 t.2.2 (of_decide_eq_true hb1)
          (of_decide_eq_true hb2) (of_decide_eq_true hb3)
    · rw [if_neg hrgb] at h
      exact absurd h (by simp)

theorem claim_C3_normalize_canonical_witness :
    normalize_color "RGB(255, 0, 128)" = some "#ff0080" ∧
    rgbChannelsLe255 (pylower (pystrip "RGB(255, 0, 128)".toList)) = true ∧
    isCanonicalHex "#ff0080" = true :=
  ⟨by decide, by decide,
   claim_C3_normalize_canonical "RGB(255, 0, 128)" "#ff0080" (by decide) (by decide)⟩

/-- C5 (counterexample): normalization is not idempotent on every input whose
normalization succeeds — `rgb(256, 0, 0)` normalizes to `"#1000000"` (7 hex
digits), which fed back in fails to normalize. -/
theorem claim_C5_counterexample :
    normalize_color "rgb(256, 0, 0)" = some "#1000000" ∧
    normalize_color "#1000000" = none := by
  constructor
  · decide
  · decide

/-- C5 (amended): normalization is idempotent on every valid color string
whose (successful) normalization result is a canonical `#rrggbb` string —
always the case except for `rgb()` inputs with a channel above 255:
`normalize(normalize(c)) = normalize(c)`. -/
theorem claim_C5_normalize_idempotent (c r : String)
    (_h : normalize_color c = some r) (hc : isCanonicalHex r = true) :
    normalize_color r = some r :=
  normalize_canonical_fixed r hc

theorem claim_C5_normalize_idempotent_witness :
    normalize_color "#AbC" = some "#aabbcc" ∧
    isCanonicalHex "#aabbcc" = true ∧
    normalize_color "#aabbcc" = some "#aabbcc" :=
  ⟨by decide, by decide,
   claim_C5_normalize_idempotent "#AbC" "#aabbcc" (by decide) (by decide)⟩

/-- C10: `hex_to_rgb` is total and returns `(0, 0, 0)` whenever its argument,
after stripping `#`, is not exactly 3 or 6 parseable hex digits
(`hexRgbParse _ = none` is precisely that condition in the embedding); on such
strings luminance is exactly 0 (hence below the very-dark threshold 0.1), the
color counts as grayscale, and its saturation is 0 — malformed colors are
silently treated as pure black, and none of the color-math helpers fails. -/
theorem claim_C10_malformed_is_black (s : String) (h : hexRgbParse s = none) :
    hex_to_rgb s = (0, 0, 0) ∧ luminance s = 0 ∧ luminance s < 0.1 ∧
    is_grayscale s 10 = true ∧ saturation s = 0 := by
  have h0 : hex_to_rgb s = (0, 0, 0) := by
    unfold hex_to_rgb
    rw [h]
    rfl
  have hlum : luminance s = 0 := by
    have hg : gammaLin (((0 : Int) : ℝ) / 255) = 0 := by
      unfold gammaLin
      rw [if_pos (by norm_num)]
      norm_num
    unfold luminance
    rw [h0]
    dsimp only
    rw [hg]
    norm_num
  refine ⟨h0, hlum, by rw [hlum]; norm_num, ?_, ?_⟩
  · unfold is_grayscale
    rw [h0]
    decide
  · unfold saturation
    rw [h0]
    decide

theorem claim_C10_malformed_is_black_witness :
    hexRgbParse "not-a-color" = none ∧
    (hex_to_rgb "not-a-color" = (0, 0, 0) ∧ luminance "not-a-color" = 0 ∧
      luminance "not-a-color" < 0.1 ∧ is_grayscale "not-a-color" 10 = true ∧
      saturation "not-a-color" = 0) :=
  ⟨by decide, claim_C10_malformed_is_black "not-a-color" (by decide)⟩

theorem takeWhile_append_pred (p : Char → Bool) (u : List Char) (c : Char)
    (t : List Char) (hu : ∀ x ∈ u, p x = true) (hc : p c = false) :
    (u ++ c :: t).takeWhile p = u := by
  induction u with
  | nil => simp [List.takeWhile_cons, hc]
  | cons a u ih =>
    rw [List.cons_append, List.takeWhile_cons, hu a (List.mem_cons_self a u)]
    rw [ih (fun x hx => hu x (List.mem_cons_of_mem a hx))]
    rw [if_pos rfl]

theorem dropWhile_append_pred (p : Char → Bool) (u : List Char) (c : Char)
    (t : List Char) (hu : ∀ x ∈ u, p x = true) (hc : p c = false) :
    (u ++ c :: t).dropWhile p = c :: t := by
  induction u with
  | nil => simp [List.dropWhile_cons, hc]
  | cons a u ih =>
    rw [List.cons_append, List.dropWhile_cons, hu a (List.mem_cons_self a u)]
    rw [if_pos rfl]
    exact ih (fun x hx => hu x (List.mem_cons_of_mem a hx))

theorem firstKeyword_sound (kws : List (List Char)) (cs r : List Char)
    (h : firstKeyword kws cs = some r) : ∃ kw ∈ kws, cs = kw ++ r := by
  induction kws with
  | nil => cases h
  | cons k ks ih =>
    unfold firstKeyword at h
    cases hk : dropPfx k cs with
    | some r' =>
      rw [hk] at h
      injection h with h'
      refine ⟨k, List.mem_cons_self k ks, ?_⟩
      rw [← h']
      exact (dropPfx_eq_some_iff k cs r').mp hk
    | none =>
      rw [hk] at h
      obtain ⟨kw, hkw, heq⟩ := ih h
      exact ⟨kw, List.mem_cons_of_mem k hkw, heq⟩

theorem firstKeyword_complete (kws : List (List Char))
    (hb : ∀ k₁ ∈ kws, ∀ k₂ ∈ kws, ∀ r₁ r₂ : List Char, k₁ ++ r₁ = k₂ ++ r₂ → k₁ = k₂)
    (kw : List Char) (hkw : kw ∈ kws) (rest : List Char) :
    firstKeyword kws (kw ++ rest) = some rest := by
  induction kws with
  | nil => cases hkw
  | cons k ks ih =>
    unfold firstKeyword
    cases hk : dropPfx k (kw ++ rest) with
    | some r =>
      have heq : kw ++ rest = k ++ r := (dropPfx_eq_some_iff k _ r).mp hk
      have hkk : kw = k :=
        hb kw hkw k (List.mem_cons_self k ks) rest r heq
      subst hkk
      rw [List.append_cancel_left heq]
    | none =>
      rcases List.mem_cons.mp hkw with rfl | hkw'
      · rw [(dropPfx_eq_some_iff kw (kw ++ rest) rest).mpr rfl] at hk
        cases hk
      · exact ih
          (fun k₁ h₁ k₂ h₂ => hb k₁ (List.mem_cons_of_mem k h₁) k₂ (List.mem_cons_of_mem k h₂))
          hkw'

theorem append_ne_of_take (k₁ k₂ : List Char)
    (h₁ : k₂.take k₁.length ≠ k₁) (h₂ : k₁.take k₂.length ≠ k₂) :
    ∀ r₁ r₂ : List Char, k₁ ++ r₁ ≠ k₂ ++ r₂ := by
  intro r₁ r₂ he
  rcases le_total k₁.length k₂.length with hl | hl
  · apply h₁
    have e1 : (k₁ ++ r₁).take k₁.length = k₁ := List.take_left k₁ r₁
    rw [he, List.take_append_of_le_length hl] at e1
    exact e1
  · apply h₂
    have e1 : (k₂ ++ r₂).take k₂.length = k₂ := List.take_left k₂ r₂
    rw [← he, List.take_append_of_le_length hl] at e1
    exact e1

theorem kwsGood_primary : KwsGood primaryKws := by
  refine ⟨by decide, ?_⟩
  intro k₁ h₁ k₂ h₂ r₁ r₂ _
  simp only [primaryKws, List.mem_singleton] at h₁ h₂
  rw [h₁, h₂]

theorem kwsGood_accent : KwsGood accentKws := by
  refine ⟨by decide, ?_⟩
  intro k₁ h₁ k₂ h₂ r₁ r₂ hr
  simp only [accentKws, List.mem_cons, List.mem_singleton, List.not_mem_nil,
    or_false] at h₁ h₂
  rcases h₁ with rfl | rfl | rfl <;> rcases h₂ with rfl | rfl | rfl <;>
    first
      | rfl
      | exact absurd hr (append_ne_of_take _ _ (by decide) (by decide) r₁ r₂)

theorem kwsGood_background : KwsGood backgroundKws := by
  refine ⟨by decide, ?_⟩
  intro k₁ h₁ k₂ h₂ r₁ r₂ hr
  simp only [backgroundKws, List.mem_cons, List.mem_singleton, List.not_mem_nil,
    or_false] at h₁ h₂
  rcases h₁ with rfl | rfl <;> rcases h₂ with rfl | rfl <;>
    first
      | rfl
      | exact absurd hr (append_ne_of_take _ _ (by decide) (by decide) r₁ r₂)

theorem tryAfterKw_iff (cs3 cap : List Char) :
    tryAfterKw cs3 = some cap ↔
      ∃ mid ws rest, cs3 = mid ++ [':'] ++ ws ++ ['#'] ++ rest ∧
        (∀ c ∈ mid, c ≠ ':') ∧ (∀ c ∈ ws, isPySpace c = true) ∧
        3 ≤ (rest.takeWhile isHexDigitCh).length ∧
        cap = '#' :: (rest.takeWhile isHexDigitCh).take 6 := by
  constructor
  · intro h
    unfold tryAfterKw at h
    cases h4 : dropPfx [':'] (cs3.dropWhile (fun c => decide (c ≠ ':'))) with
    | none => rw [h4] at h; cases h
    | some cs5 =>
      rw [h4] at h
      dsimp only at h
      cases h5 : dropPfx ['#'] (cs5.dropWhile isPySpace) with
      | none => rw [h5] at h; cases h
      | some cs6 =>
        rw [h5] at h
        dsimp only at h
        by_cases hlen : 3 ≤ ((cs6.takeWhile isHexDigitCh).take 6).length
        · rw [if_pos hlen] at h
          injection h with h'
          have hd4 : cs3.dropWhile (fun c => decide (c ≠ ':')) = ':' :: cs5 :=
            (dropPfx_eq_some_iff _ _ _).mp h4
          have hd5 : cs5.dropWhile isPySpace = '#' :: cs6 :=
            (dropPfx_eq_some_iff _ _ _).mp h5
          refine ⟨cs3.takeWhile (fun c => decide (c ≠ ':')),
            cs5.takeWhile isPySpace, cs6, ?_, ?_, ?_, ?_, ?_⟩
          · have e3 : cs3.takeWhile (fun c => decide (c ≠ ':'))
                ++ cs3.dropWhile (fun c => decide (c ≠ ':')) = cs3 :=
              List.takeWhile_append_dropWhile (fun c => decide (c ≠ ':')) cs3
            have e5 : cs5.takeWhile isPySpace ++ cs5.dropWhile isPySpace = cs5 :=
              List.takeWhile_append_dropWhile isPySpace cs5
            rw [hd4] at e3
            rw [hd5] at e5
            have h23 : cs3 = cs3.takeWhile (fun c => decide (c ≠ ':'))
                ++ ':' :: (cs5.takeWhile isPySpace ++ '#' :: cs6) := by
              rw [e5]
              exact e3.symm
            simpa [List.append_assoc] using h23
          · intro c hc
            have := List.mem_takeWhile_imp hc
            exact of_decide_eq_true this
          · intro c hc
            exact List.mem_takeWhile_imp hc
          · rw [List.length_take] at hlen
            omega
          · rw [← h']
        · rw [if_neg hlen] at h
          cases h
  · rintro ⟨mid, ws, rest, hdec, hmid, hws, hlen, hcap⟩
    subst hdec
    unfold tryAfterKw
    have hd4 : ((mid ++ [':'] ++ ws ++ ['#'] ++ rest).dropWhile
        (fun c => decide (c ≠ ':'))) = ':' :: (ws ++ ['#'] ++ rest) := by
      have := dropWhile_append_pred (fun c => decide (c ≠ ':')) mid ':'
        (ws ++ ['#'] ++ rest)
        (fun x hx => decide_eq_true (hmid x hx))
        (by decide)
      simpa [List.append_assoc] using this
    rw [hd4]
    rw [(dropPfx_eq_some_iff [':'] (':' :: (ws ++ ['#'] ++ rest))
      (ws ++ ['#'] ++ rest)).mpr rfl]
    dsimp only
    have hd5 : ((ws ++ ['#'] ++ rest).dropWhile isPySpace) = '#' :: rest := by
      have := dropWhile_append_pred isPySpace ws '#' rest hws (by decide)
      simpa [List.append_assoc] using this
    rw [hd5]
    rw [(dropPfx_eq_some_iff ['#'] ('#' :: rest) rest).mpr rfl]
    dsimp only
    rw [if_pos (by rw [List.length_take]; omega)]
    rw [hcap]

theorem tryRoleAt_iff (kws : List (List Char)) (hkws : KwsGood kws)
    (cs cap : List Char) :
    tryRoleAt kws cs = some cap ↔ SpecMatchCapture kws cs cap := by
  obtain ⟨hne, hb⟩ := hkws
  constructor
  · intro h
    unfold tryRoleAt at h
    cases h1 : dropPfx ['-', '-'] cs with
    | none => rw [h1] at h; cases h
    | some cs1 =>
      rw [h1] at h
      dsimp only at h
      have hcs : cs = ['-', '-'] ++ cs1 := (dropPfx_eq_some_iff _ _ _).mp h1
      cases h2 : dropPfx "color-".toList cs1 with
      | some cs2 =>
        rw [h2] at h
        dsimp only at h
        have hcs1 : cs1 = "color-".toList ++ cs2 := (dropPfx_eq_some_iff _ _ _).mp h2
        cases h3 : firstKeyword kws cs2 with
        | none => rw [h3] at h; cases h
        | some cs3 =>
          rw [h3] at h
          dsimp only at h
          obtain ⟨kw, hkwm, hcs2⟩ := firstKeyword_sound kws cs2 cs3 h3
          obtain ⟨mid, ws, rest, hcs3, hmid, hws, hlen, hcap⟩ :=
            (tryAfterKw_iff cs3 cap).mp h
          refine ⟨"color-".toList, kw, mid, ws, rest, Or.inr rfl, hkwm, ?_,
            hmid, hws, hlen, hcap⟩
          rw [hcs, hcs1, hcs2, hcs3]
          simp [List.append_assoc]
      | none =>
        rw [h2] at h
        dsimp only at h
        cases h3 : firstKeyword kws cs1 with
        | none => rw [h3] at h; cases h
        | some cs3 =>
          rw [h3] at h
          dsimp only at h
          obtain ⟨kw, hkwm, hcs1⟩ := firstKeyword_sound kws cs1 cs3 h3
          obtain ⟨mid, ws, rest, hcs3, hmid, hws, hlen, hcap⟩ :=
            (tryAfterKw_iff cs3 cap).mp h
          refine ⟨[], kw, mid, ws, rest, Or.inl rfl, hkwm, ?_,
            hmid, hws, hlen, hcap⟩
          rw [hcs, hcs1, hcs3]
          simp [List.append_assoc]
  · rintro ⟨pfx, kw, mid, ws, rest, hpfx, hkw, hdec, hmid, hws, hlen, hcap⟩
    obtain ⟨hkwne, hkwc⟩ := hne kw hkw
    obtain ⟨k0, kw', rfl⟩ : ∃ k0 kw', kw = k0 :: kw' := by
      cases kw with
      | nil => exact absurd rfl hkwne
      | cons a l => exact ⟨a, l, rfl⟩
    have hk0c : ¬(k0 = 'c') := by
      intro hc
      apply hkwc
      rw [hc]
      rfl
    unfold tryRoleAt
    subst hdec
    simp only [List.append_assoc]
    rw [(dropPfx_eq_some_iff ['-', '-']
      (['-', '-'] ++ (pfx ++ ((k0 :: kw') ++ (mid ++ ([':'] ++ (ws ++ (['#'] ++ rest)))))))
      (pfx ++ ((k0 :: kw') ++ (mid ++ ([':'] ++ (ws ++ (['#'] ++ rest))))))).mpr rfl]
    dsimp only
    rcases hpfx with rfl | rfl
    · rw [show ([] : List Char) ++ ((k0 :: kw') ++ (mid ++ ([':'] ++ (ws ++ (['#'] ++ rest)))))
        = (k0 :: kw') ++ (mid ++ ([':'] ++ (ws ++ (['#'] ++ rest)))) from rfl]
      rw [show dropPfx "color-".toList
          ((k0 :: kw') ++ (mid ++ ([':'] ++ (ws ++ (['#'] ++ rest))))) = none
        from by simp [dropPfx, hk0c]]
      dsimp only
      rw [firstKeyword_complete kws hb (k0 :: kw') hkw
        (mid ++ ([':'] ++ (ws ++ (['#'] ++ rest))))]
      dsimp only
      exact (tryAfterKw_iff _ cap).mpr
        ⟨mid, ws, rest, by simp [List.append_assoc], hmid, hws, hlen, hcap⟩
    · rw [(dropPfx_eq_some_iff "color-".toList
        ("color-".toList ++ ((k0 :: kw') ++ (mid ++ ([':'] ++ (ws ++ (['#'] ++ rest))))))
        ((k0 :: kw') ++ (mid ++ ([':'] ++ (ws ++ (['#'] ++ rest)))))).mpr rfl]
      dsimp only
      rw [firstKeyword_complete kws hb (k0 :: kw') hkw
        (mid ++ ([':'] ++ (ws ++ (['#'] ++ rest))))]
      dsimp only
      exact (tryAfterKw_iff _ cap).mpr
        ⟨mid, ws, rest, by simp [List.append_assoc], hmid, hws, hlen, hcap⟩

theorem tryRoleAt_nil (kws : List (List Char)) : tryRoleAt kws [] = none := rfl

theorem searchRole_eq_some_iff (kws : List (List Char)) (l h : List Char) :
    searchRole kws l = some h ↔
      ∃ i, tryRoleAt kws (l.drop i) = some h ∧
        ∀ j < i, tryRoleAt kws (l.drop j) = none := by
  induction l with
  | nil =>
    constructor
    · intro he
      cases he
    · rintro ⟨i, hi, -⟩
      rw [List.drop_nil] at hi
      rw [tryRoleAt_nil] at hi
      cases hi
  | cons c cs ih =>
    unfold searchRole
    cases ht : tryRoleAt kws (c :: cs) with
    | some h' =>
      constructor
      · intro he
        injection he with he
        subst he
        exact ⟨0, ht, fun j hj => absurd hj (Nat.not_lt_zero j)⟩
      · rintro ⟨i, hi, hj⟩
        cases i with
        | zero =>
          rw [List.drop_zero] at hi
          rw [ht] at hi
          exact hi
        | succ i' =>
          have h0 := hj 0 (Nat.succ_pos i')
          rw [List.drop_zero, ht] at h0
          cases h0
    | none =>
      rw [ih]
      constructor
      · rintro ⟨i, hi, hj⟩
        refine ⟨i + 1, ?_, ?_⟩
        · rw [List.drop_succ_cons]
          exact hi
        · intro j hj'
          cases j with
          | zero =>
            rw [List.drop_zero]
            exact ht
          | succ j' =>
            rw [List.drop_succ_cons]
            exact hj j' (by omega)
      · rintro ⟨i, hi, hj⟩
        cases i with
        | zero =>
          rw [List.drop_zero, ht] at hi
          cases hi
        | succ i' =>
          refine ⟨i', ?_, ?_⟩
          · rw [List.drop_succ_cons] at hi
            exact hi
          · intro j hj'
            have := hj (j + 1) (by omega)
            rw [List.drop_succ_cons] at this
            exact this

theorem semRole_iff (kws : List (List Char)) (hkws : KwsGood kws)
    (cs : List Char) (v : String) :
    (searchRole kws cs).bind (fun h => normalize_color (String.mk h)) = some v ↔
      ∃ i cap, SpecMatchCapture kws (cs.drop i) cap ∧
        (∀ j < i, ∀ c, ¬ SpecMatchCapture kws (cs.drop j) c) ∧
        normalize_color (String.mk cap) = some v := by
  constructor
  · intro h
    obtain ⟨cap, hsr, hn⟩ := Option.bind_eq_some.mp h
    obtain ⟨i, hi, hj⟩ := (searchRole_eq_some_iff kws cs cap).mp hsr
    refine ⟨i, cap, (tryRoleAt_iff kws hkws _ cap).mp hi, ?_, hn⟩
    intro j hj' c hc
    have := (tryRoleAt_iff kws hkws (cs.drop j) c).mpr hc
    rw [hj j hj'] at this
    cases this
  · rintro ⟨i, cap, hspec, hnone, hn⟩
    have hi : tryRoleAt kws (cs.drop i) = some cap :=
      (tryRoleAt_iff kws hkws _ cap).mpr hspec
    have hj : ∀ j < i, tryRoleAt kws (cs.drop j) = none := by
      intro j hj'
      cases htj : tryRoleAt kws (cs.drop j) with
      | none => rfl
      | some c =>
        exact absurd ((tryRoleAt_iff kws hkws _ c).mp htj) (hnone j hj' c)
    have hsr : searchRole kws cs = some cap :=
      (searchRole_eq_some_iff kws cs cap).mpr ⟨i, hi, hj⟩
    rw [Option.bind_eq_some]
    exact ⟨cap, hsr, hn⟩

/-- C4 (counterexample): the css text `--brand-primary: #ff0000;` contains a
custom property whose *name contains* `primary` followed by a hex value —
the right-hand side of claim C4's iff — but the source pattern
`--(color-)?primary[^:]*:` requires the name to *begin* with `primary`
(optionally after `color-`), so the extracted hint has no `primary` role. -/
theorem claim_C4_counterexample :
    SpecRoleVarContains primaryKws "--brand-primary: #ff0000;".toList ∧
    (extract_semantic_vars "--brand-primary: #ff0000;").primary = none := by
  constructor
  · refine ⟨[], "brand-primary".toList, [' '], "ff0000".toList, [';'],
      by decide, by decide,
      ⟨"primary".toList, by decide, "brand-".toList, [], by decide⟩,
      by decide, by decide, by decide, by decide⟩
  · decide

/-- C4 (amended): for each role, the hint contains the role with value `v`
iff, at the leftmost position of the (lowercased) css where the role's
pattern matches — the property name must *begin* with one of the role's
keywords, optionally prefixed by `color-`, with any non-colon characters
before the colon and then optional whitespace and a hex literal — the
captured hex (the first `min(6, run)` digits, at least 3 required)
normalizes successfully to `v`.  In particular a first match whose capture
has 4 or 5 hex digits leaves the role absent even if a later match would
normalize. -/
theorem claim_C4_semantic_patterns (css : String) (v : String) :
    ((extract_semantic_vars css).primary = some v ↔
      FirstSemMatch primaryKws css v) ∧
    ((extract_semantic_vars css).accent = some v ↔
      FirstSemMatch accentKws css v) ∧
    ((extract_semantic_vars css).background = some v ↔
      FirstSemMatch backgroundKws css v) :=
  ⟨semRole_iff primaryKws kwsGood_primary (pylower css.toList) v,
   semRole_iff accentKws kwsGood_accent (pylower css.toList) v,
   semRole_iff backgroundKws kwsGood_background (pylower css.toList) v⟩
